import Mathlib

/-!
# GoFlow — formal model and verification of the spec's claims

This file gives a shallow embedding in Lean 4 of the core of the GoFlow
HTTP router and its admission-control rate limiter, translated from the
Go sources, and proves (or refutes) the frozen claims about it.

Embedding conventions:
* Go maps (`map[string]T`) are modelled as association lists
  (`List (String × T)`) with map-assignment (`insert` = replace-or-append)
  and first-match lookup; Go map iteration order is irrelevant for every
  modelled operation (the only iteration feeding an observable result is
  sorted afterwards, or builds a map again).
* `int32`/`int64` counters are modelled as `Int`; none of the verified
  properties involves wraparound, and tokens only move between 0 and the
  configured ceilings.
* The compiled regular-expression validator (`*regexp.Regexp`) is an
  external collaborator (the Go standard library); it is modelled by its
  `MatchString` function, i.e. an abstract `String → Bool`, and route
  registration takes the compiler `String → String → Bool`
  (pattern ↦ matcher) as a parameter.
* Handlers (`http.Handler`) are opaque; they are modelled by an arbitrary
  type parameter `H`, so handler identity is plain equality.
* Concurrency: the claims under verification are sequential functional
  properties; the compare-and-swap retry loops of `RateLimiter.Allow`
  are modelled by their sequential effect (a successful decrement).
-/

namespace GoFlow

/-! ## Association-list primitives (model of Go maps) -/

/-- First-match lookup in an association list, `m[k]` with `ok` as `some`. -/
def lookupStr {α : Type _} : List (String × α) → String → Option α
  | [], _ => none
  | (k0, v0) :: rest, k => if k0 = k then some v0 else lookupStr rest k

/-- Go map assignment `m[k] = v`: replace the binding if present, else add it. -/
def insertStr {α : Type _} : List (String × α) → String → α → List (String × α)
  | [], k, v => [(k, v)]
  | (k0, v0) :: rest, k, v =>
    if k0 = k then (k0, v) :: rest else (k0, v0) :: insertStr rest k v

/-- Go `delete(m, k)`: remove the binding for `k` entirely. -/
def eraseStr {α : Type _} : List (String × α) → String → List (String × α)
  | [], _ => []
  | (k0, v0) :: rest, k =>
    if k0 = k then rest else (k0, v0) :: eraseStr rest k

/-! ## The sharded rate limiter (`RateLimiter`, `NewRateLimiter`, `Allow`)

Translated from the sharded variant: per-key buckets hold a steady-token
pool, a burst pool and a last-seen timestamp (Unix nanoseconds).  A shard
is one `map[string]*bucket`; keys hash to a fixed shard, and distinct
shards share no state, so the model is one shard's map.  The CAS loops on
an existing bucket are modelled by their sequential effect. -/

/-- Per-key bucket state (`bucket`): steady tokens, burst tokens,
last-seen timestamp in nanoseconds. -/
structure Bucket where
  tokens : Int
  burst : Int
  lastSeen : Int
deriving Repr, DecidableEq

/-- Rate limiter configuration (`RateLimiter` fields; `shards` collapse to
one bucket map since keys are partitioned by hash). -/
structure RateLimiter where
  requests : Int
  burst : Int
  interval : Int
  maxSize : Nat
deriving Repr, DecidableEq

/-- One shard's bucket map. -/
abbrev Buckets := List (String × Bucket)

/-- Mirror of `NewRateLimiter(requests, duration, burst)`: steady ceiling,
burst ceiling, interval in nanoseconds, maximum shard size 32768. -/
def NewRateLimiter (requests : Int) (durationNs : Int) (burst : Int) : RateLimiter :=
  { requests := requests, burst := burst, interval := durationNs, maxSize := 32768 }

/-- Eviction sweep in `Allow`'s slow path: drop entries whose `lastSeen`
is strictly below the threshold `now - 2*interval`. -/
def evictOld (threshold : Int) (bs : Buckets) : Buckets :=
  bs.filter (fun kv => decide (threshold ≤ kv.2.lastSeen))

/-- Model of `RateLimiter.Allow(key)` at time `now`, acting on one shard's map.

Fast path (existing bucket): if a full interval elapsed, reset both pools
to their ceilings, advance the timestamp and admit; otherwise decrement a
steady token if positive, else a burst token if positive, else refuse.
Slow path (no bucket): evict stale entries if the shard is full, then
create the bucket with `requests - 1` steady tokens (the creating call
consumes one) and full burst, and admit. -/
def RateLimiter.Allow (rl : RateLimiter) (bs : Buckets) (key : String) (now : Int) :
    Bool × Buckets :=
  match lookupStr bs key with
  | some b =>
    if rl.interval ≤ now - b.lastSeen then
      (true, insertStr bs key { tokens := rl.requests, burst := rl.burst, lastSeen := now })
    else if 0 < b.tokens then
      (true, insertStr bs key { tokens := b.tokens - 1, burst := b.burst, lastSeen := b.lastSeen })
    else if 0 < b.burst then
      (true, insertStr bs key { tokens := b.tokens, burst := b.burst - 1, lastSeen := b.lastSeen })
    else
      (false, bs)
  | none =>
    let bs1 := if rl.maxSize ≤ bs.length then evictOld (now - 2 * rl.interval) bs else bs
    (true, (key, { tokens := rl.requests - 1, burst := rl.burst, lastSeen := now }) :: bs1)

/-- Iterate `Allow` for one key over a list of call times, collecting the
admission results and the final shard state. -/
def allowRun (rl : RateLimiter) (key : String) : Buckets → List Int → List Bool × Buckets
  | bs, [] => ([], bs)
  | bs, t :: ts =>
    let r := rl.Allow bs key t
    let rest := allowRun rl key r.2 ts
    (r.1 :: rest.1, rest.2)

/-! ## String helpers mirroring the `strings` package calls in the source -/

/-- Worker for `goSplitSlash`, accumulating the current segment reversed. -/
def splitSegAux : List Char → List Char → List String
  | [], cur => [String.mk cur.reverse]
  | c :: cs, cur =>
    if c = '/' then String.mk cur.reverse :: splitSegAux cs []
    else splitSegAux cs (c :: cur)

/-- Go `strings.Split(s, "/")`: split at every slash, keeping empty
segments; the empty string yields `[""]`. -/
def goSplitSlash (s : String) : List String :=
  splitSegAux s.toList []

/-- Go `strings.Trim(s, "/")`: drop leading and trailing slashes. -/
def trimSlash (s : String) : String :=
  String.mk (((s.toList.dropWhile (· = '/')).reverse.dropWhile (· = '/')).reverse)

/-- Go `strings.Cut(s, "|")`: split at the first bar into
`(before, after, found)`. -/
def cutBarAux : List Char → List Char → String × String × Bool
  | [], acc => (String.mk acc.reverse, "", false)
  | c :: cs, acc =>
    if c = '|' then (String.mk acc.reverse, String.mk cs, true)
    else cutBarAux cs (c :: acc)

/-- Go `strings.Cut(s, "|")` on a whole string. -/
def cutBar (s : String) : String × String × Bool :=
  cutBarAux s.toList []

/-- Substring by byte positions `path[a:b]` (ASCII paths). -/
def subStr (cs : List Char) (a b : Nat) : String :=
  String.mk ((cs.drop a).take (b - a))

/-- Go `strings.HasPrefix(s, pre)` (character-wise). -/
def strHasColon (s : String) : Bool :=
  match s.toList with
  | ':' :: _ => true
  | _ => false

/-- Go `strings.TrimPrefix(s, ":")` after the colon check: drop one
character. -/
def dropFirst (s : String) : String :=
  String.mk (s.toList.drop 1)

/-- Go `strings.ToUpper` for ASCII method names (character-wise). -/
def goToUpper (s : String) : String :=
  String.mk (s.toList.map Char.toUpper)

/-- Go `strings.Split(s, ", ")`, used to read an `Allow` header value
back as the advertised method set. -/
def splitCommaSpaceAux : List Char → List Char → List String
  | [], cur => [String.mk cur.reverse]
  | ',' :: ' ' :: cs, cur => String.mk cur.reverse :: splitCommaSpaceAux cs []
  | c :: cs, cur => splitCommaSpaceAux cs (c :: cur)

/-- Go `strings.Split(s, ", ")` on a whole string. -/
def splitCommaSpace (s : String) : List String :=
  splitCommaSpaceAux s.toList []

/-- The index loop of `Mux.getPathSegments`: scan from `i = 1`; a slash at
`i` emits `path[start+1:i]` and moves `start` to `i`; a non-slash final
character emits `path[start+1:]`.  The loop runs while `i < n` and `i`
only grows, so the first (fuel) argument, called with `n`, bounds the
remaining iterations. -/
def gpsLoop (cs : List Char) (n : Nat) : Nat → Nat → Nat → List String
  | 0, _, _ => []
  | fuel + 1, i, start =>
    if i < n then
      if cs.getD i ' ' = '/' then
        subStr cs (start + 1) i :: gpsLoop cs n fuel (i + 1) i
      else if i = n - 1 then
        subStr cs (start + 1) n :: gpsLoop cs n fuel (i + 1) start
      else
        gpsLoop cs n fuel (i + 1) start
    else []

/-- Model of `Mux.getPathSegments(path)`: `""` and `"/"` give no segments. -/
def getPathSegments (path : String) : List String :=
  if path = "" ∨ path = "/" then []
  else gpsLoop path.toList path.length path.length 1 0

/-! ## Method dispatch tables (`methodHandler`) -/

/-- The supported-method list `AllMethods`, in source order. -/
def AllMethods : List String :=
  ["GET", "HEAD", "POST", "PUT", "PATCH", "DELETE", "CONNECT", "OPTIONS", "TRACE"]

/-- The `methodMap` bitset (iota order of the bit constants); unknown
methods map to no bit, so or-ing it is the `ok` guard of the source. -/
def methodBit : String → Nat
  | "GET" => 1
  | "POST" => 2
  | "PUT" => 4
  | "DELETE" => 8
  | "PATCH" => 16
  | "HEAD" => 32
  | "OPTIONS" => 64
  | "TRACE" => 128
  | "CONNECT" => 256
  | _ => 0

/-- Insertion step for `sortStrings`. -/
def insertSorted (s : String) : List String → List String
  | [] => [s]
  | x :: xs =>
    match compare s x with
    | Ordering.gt => x :: insertSorted s xs
    | _ => s :: x :: xs

/-- Go `sort.Strings`: ascending lexicographic sort. -/
def sortStrings (l : List String) : List String :=
  l.foldr insertSorted []

/-- The `methodHandler` struct: per-node dispatch table plus the precomputed
`Allow` summary. -/
structure MethodHandler (H : Type) where
  handlers : List (String × H)
  allowedSet : Nat
  allowedList : String
deriving DecidableEq

/-- Model of `newMethodHandler()`. -/
def newMethodHandler {H : Type} : MethodHandler H :=
  { handlers := [], allowedSet := 0, allowedList := "" }

/-- Model of `updateAllowedList`: sorted comma-joined method names plus `OPTIONS`. -/
def updateAllowedList {H : Type} (mh : MethodHandler H) : MethodHandler H :=
  { mh with allowedList :=
      String.intercalate ", " (sortStrings (mh.handlers.map Prod.fst) ++ ["OPTIONS"]) }

/-- Model of `methodHandler.addHandler(method, handler)`. -/
def addHandlerMH {H : Type} (mh : MethodHandler H) (m : String) (h : H) : MethodHandler H :=
  updateAllowedList
    { mh with handlers := insertStr mh.handlers m h,
              allowedSet := mh.allowedSet ||| methodBit m }

/-! ## The route tree (`routeTree`) -/

/-- The `routeTree` struct: literal segment text, optional dispatch table, literal
children keyed by segment, at most one parameter child with its bound
name, the wildcard marker, and the optional compiled validator (modelled
by its `MatchString` function). -/
inductive RouteTree (H : Type) : Type where
  | node (segment : String)
         (methods : Option (MethodHandler H))
         (children : List (String × RouteTree H))
         (paramChild : Option (RouteTree H))
         (paramName : String)
         (isWildcard : Bool)
         (rx : Option (String → Bool)) : RouteTree H

namespace RouteTree

variable {H : Type}

/-- Field accessor. -/
def segment : RouteTree H → String
  | .node s _ _ _ _ _ _ => s

/-- Field accessor. -/
def methods : RouteTree H → Option (MethodHandler H)
  | .node _ m _ _ _ _ _ => m

/-- Field accessor. -/
def children : RouteTree H → List (String × RouteTree H)
  | .node _ _ c _ _ _ _ => c

/-- Field accessor. -/
def paramChild : RouteTree H → Option (RouteTree H)
  | .node _ _ _ pc _ _ _ => pc

/-- Field accessor. -/
def paramName : RouteTree H → String
  | .node _ _ _ _ pn _ _ => pn

/-- Field accessor. -/
def isWildcard : RouteTree H → Bool
  | .node _ _ _ _ _ w _ => w

/-- Field accessor. -/
def rx : RouteTree H → Option (String → Bool)
  | .node _ _ _ _ _ _ r => r

end RouteTree

/-- A freshly allocated `&routeTree{...}` with a literal segment or a
parameter name. -/
def blankNode {H : Type} (seg pname : String) : RouteTree H :=
  .node seg none [] none pname false none

/-- The empty root created by `New()`. -/
def rootNode {H : Type} : RouteTree H := blankNode "" ""

/-- Overwrite a node's validator (`child.rxPattern = ...`). -/
def setRx {H : Type} : RouteTree H → Option (String → Bool) → RouteTree H
  | .node a b c d e f _, r => .node a b c d e f r

/-- Register `handler` for `method` in a node's table, creating the table
if absent (the `child.methods == nil` branch of `addRoute`). -/
def addMethodsTo {H : Type} : RouteTree H → String → H → RouteTree H
  | .node a m c d e f g, method, h =>
    .node a (some (addHandlerMH (m.getD newMethodHandler) method h)) c d e f g

/-- Model of `findOrCreateChild(node, segment, paramName)`: the existing parameter
child, or a fresh one carrying `paramName` (an existing slot keeps its old
name); for literals, the existing child for `segment` or a fresh one. -/
def findOrCreateChild {H : Type} (t : RouteTree H) (seg pname : String) : RouteTree H :=
  if pname ≠ "" then t.paramChild.getD (blankNode "" pname)
  else (lookupStr t.children seg).getD (blankNode seg "")

/-- Model of `addRoute` on the pre-split segment list.  A `"..."` segment marks the
current node as wildcard and registers the handler there (the rest of the
pattern is ignored); a `":name|rx"` segment goes to the single parameter
slot, overwriting its validator when a pattern is supplied; any other
segment goes to the literal child map.  The terminal segment's child
receives the handler.  The functional write-back of the mutated child into
`paramChild` / `children` renders the Go pointer mutation. -/
def addRouteSegs {H : Type} (compile : String → String → Bool) :
    RouteTree H → List String → String → H → RouteTree H
  | t, [], _, _ => t
  | t, s :: rest, method, h =>
    match t with
    | .node seg0 m0 ch0 pc0 pn0 wc0 rx0 =>
      if s = "..." then
        .node seg0 (some (addHandlerMH (m0.getD newMethodHandler) method h)) ch0 pc0 pn0 true rx0
      else if strHasColon s then
        let c := cutBar (dropFirst s)
        let child0 := findOrCreateChild (RouteTree.node seg0 m0 ch0 pc0 pn0 wc0 rx0) "" c.1
        let child1 := if c.2.2 then setRx child0 (some (compile c.2.1)) else child0
        let child2 := if rest.isEmpty then addMethodsTo child1 method h else child1
        let childn := addRouteSegs compile child2 rest method h
        if c.1 = "" then
          .node seg0 m0 (insertStr ch0 "" childn) pc0 pn0 wc0 rx0
        else
          .node seg0 m0 ch0 (some childn) pn0 wc0 rx0
      else
        let child0 := findOrCreateChild (RouteTree.node seg0 m0 ch0 pc0 pn0 wc0 rx0) s ""
        let child2 := if rest.isEmpty then addMethodsTo child0 method h else child0
        .node seg0 m0 (insertStr ch0 s (addRouteSegs compile child2 rest method h)) pc0 pn0 wc0 rx0

/-- Model of `Mux.addRoute(pattern, method, handler)`:
`strings.Split(strings.Trim(pattern, "/"), "/")` then the segment walk. -/
def addRoute {H : Type} (compile : String → String → Bool) (t : RouteTree H)
    (pat method : String) (h : H) : RouteTree H :=
  addRouteSegs compile t (goSplitSlash (trimSlash pat)) method h

/-- Model of `Mux.Handle(pattern, handler, methods...)`: default to `AllMethods`
when no method is given; auto-append `HEAD` when `GET` is present without
an explicit `HEAD`; register the (upper-cased) methods in order. -/
def handle {H : Type} (compile : String → String → Bool) (t : RouteTree H)
    (pat : String) (h : H) (methods : List String) : RouteTree H :=
  let ms := if methods.isEmpty then AllMethods else methods
  let ms2 := if ms.contains "GET" && !(ms.contains "HEAD") then ms ++ ["HEAD"] else ms
  ms2.foldl (fun acc m => addRoute compile acc pat (goToUpper m) h) t

/-! ## Resolution (`findHandler`) -/

/-- The per-request parameter map. -/
abbrev Params := List (String × String)

/-- Model of `Param(ctx, name)`: the bound value, or `""` when unbound. -/
def getParam (ps : Params) (name : String) : String :=
  (lookupStr ps name).getD ""

/-- The guard `paramChild.rxPattern != nil && !MatchString(segment)`
inverted: `true` when there is no validator or the segment matches it. -/
def rxAccepts : Option (String → Bool) → String → Bool
  | none, _ => true
  | some f, s => f s

/-- Model of `Mux.findHandler(node, segments, params)`.

Returns `(some mo, ps)` for `(mo, ps, true)` — note `mo` may be `none`,
matching a found node with a nil dispatch table — and `(none, ps)` for a
failed resolution.  The second component is the Go parameter map after the
call: bindings are written by map assignment on descent into a parameter
child and deleted again when that subtree fails, exactly as in the source.

Order of attempts at a node with segments remaining: wildcard check first
(unconditional match of the joined remainder), then the literal child for
the segment, and only if that subtree fails the single parameter child,
whose validator must accept the segment or the whole level fails. -/
def findHandler {H : Type} :
    RouteTree H → List String → Params → Option (Option (MethodHandler H)) × Params
  | t, [], params => (some t.methods, params)
  | t, seg :: rest, params =>
    if t.isWildcard then
      let p := insertStr params "..." (String.intercalate "/" (seg :: rest))
      (some t.methods, p)
    else
      let stat :=
        match lookupStr t.children seg with
        | some child => findHandler child rest params
        | none => (none, params)
      match stat.1 with
      | some r => (some r, stat.2)
      | none =>
        match t.paramChild with
        | some pc =>
          if rxAccepts pc.rx seg then
            let inner := findHandler pc rest (insertStr stat.2 pc.paramName seg)
            match inner.1 with
            | some r => (some r, inner.2)
            | none => (none, eraseStr inner.2 pc.paramName)
          else (none, stat.2)
        | none => (none, stat.2)

/-- Definitional unfolding of `findHandler` on a nonempty segment list. -/
theorem findHandler_cons_eq {H : Type} (t : RouteTree H) (seg : String) (rest : List String)
    (params : Params) :
    findHandler t (seg :: rest) params =
      (if t.isWildcard then
        let p := insertStr params "..." (String.intercalate "/" (seg :: rest))
        (some t.methods, p)
      else
        let stat :=
          match lookupStr t.children seg with
          | some child => findHandler child rest params
          | none => (none, params)
        match stat.1 with
        | some r => (some r, stat.2)
        | none =>
          match t.paramChild with
          | some pc =>
            if rxAccepts pc.rx seg then
              let inner := findHandler pc rest (insertStr stat.2 pc.paramName seg)
              match inner.1 with
              | some r => (some r, inner.2)
              | none => (none, eraseStr inner.2 pc.paramName)
            else (none, stat.2)
          | none => (none, stat.2)) := rfl

/-! ## Static path index (`precomputeStaticPaths` / `buildStaticPaths`) -/

/-- Prefix building of `buildStaticPaths`: the empty prefix extends to the
bare segment, anything else gains `"/" ++ segment`. -/
def extendPfx (pre seg : String) : String :=
  if pre = "" then seg else pre ++ "/" ++ seg

mutual

/-- Model of `Mux.buildStaticPaths(node, prefix)`: stop at any node that has a
parameter child or the wildcard marker; otherwise record the node under
its prefix when it has a dispatch table, and walk all literal children. -/
def buildStaticPaths {H : Type} : RouteTree H → String → List (String × RouteTree H)
  | t@(.node _ m ch pc _ wc _), pre =>
    if pc.isSome || wc then []
    else
      (match m with
       | some _ => [(pre, t)]
       | none => []) ++ buildStaticPathsList ch pre

/-- The `for segment, child := range node.children` walk. -/
def buildStaticPathsList {H : Type} :
    List (String × RouteTree H) → String → List (String × RouteTree H)
  | [], _ => []
  | (seg, child) :: rest, pre =>
    buildStaticPaths child (extendPfx pre seg) ++ buildStaticPathsList rest pre

end

/-- Model of `Mux.precomputeStaticPaths()`: the full walk from the root with an
empty prefix. -/
def precomputeStaticPaths {H : Type} (root : RouteTree H) : List (String × RouteTree H) :=
  buildStaticPaths root ""

/-! ## Request dispatch (`Mux.ServeHTTP`, slow path after `findHandler`) -/

/-- The observable dispatch outcome: a handler invocation with its bound
parameters, a method-not-allowed or options fallback carrying the `Allow`
header value, or the not-found fallback. -/
inductive Outcome (H : Type) where
  | handler (h : H) (params : Params)
  | methodNotAllowed (allow : String)
  | options (allow : String)
  | notFound
deriving DecidableEq

/-- The dispatch decision of `Mux.ServeHTTP` after path normalisation:
resolve the segments with an empty parameter map; on a found node with a
table, invoke the method's handler or fall back (Options for an `OPTIONS`
request, MethodNotAllowed otherwise) with the table's `allowedList` as the
advertised `Allow` value; anything else is NotFound. -/
def serve {H : Type} (root : RouteTree H) (method path : String) : Outcome H :=
  let p := if path = "" then "/" else path
  match findHandler root (getPathSegments p) [] with
  | (some (some mh), ps) =>
    match lookupStr mh.handlers method with
    | some h => .handler h ps
    | none =>
      if method = "OPTIONS" then .options mh.allowedList
      else .methodNotAllowed mh.allowedList
  | _ => .notFound

/-! ## Well-formedness of trees reachable by registration

Go maps cannot hold duplicate keys; the association-list model can, so
tree-shaped statements that quantify over arbitrary trees assume the
no-duplicate-keys condition below (every tree built by `addRoute` from the
empty root satisfies it). -/

mutual

/-- Every node's literal-children keys are pairwise distinct. -/
def treeWF {H : Type} : RouteTree H → Bool
  | .node _ _ ch pc _ _ _ =>
    ((ch.map Prod.fst).Nodup : Bool) && childrenWF ch &&
      (match pc with
       | some c => treeWF c
       | none => true)

/-- Conjunction of `treeWF` over a children list. -/
def childrenWF {H : Type} : List (String × RouteTree H) → Bool
  | [] => true
  | (_, c) :: rest => treeWF c && childrenWF rest

end

/-! ## Lemmas about the association-list map model -/

section AssocLemmas

variable {α : Type _}

theorem lookupStr_mem : ∀ {bs : List (String × α)} {k : String} {v : α},
    lookupStr bs k = some v → (k, v) ∈ bs := by
  intro bs
  induction bs with
  | nil => intro k v h; simp [lookupStr] at h
  | cons kv rest ih =>
    intro k v h
    obtain ⟨k0, v0⟩ := kv
    by_cases hk : k0 = k
    · subst hk
      simp [lookupStr] at h
      subst h
      exact List.mem_cons_self _ _
    · simp only [lookupStr, if_neg hk] at h
      exact List.mem_cons_of_mem _ (ih h)

theorem lookupStr_none_not_mem : ∀ {bs : List (String × α)} {k : String},
    lookupStr bs k = none → k ∉ bs.map Prod.fst := by
  intro bs
  induction bs with
  | nil => intro k _; simp
  | cons kv rest ih =>
    intro k h
    obtain ⟨k0, v0⟩ := kv
    by_cases hk : k0 = k
    · subst hk; simp [lookupStr] at h
    · simp only [lookupStr, if_neg hk] at h
      simp only [List.map_cons, List.mem_cons]
      rintro (h1 | h2)
      · exact hk h1.symm
      · exact ih h h2

theorem lookupStr_insertStr_self : ∀ (bs : List (String × α)) (k : String) (v : α),
    lookupStr (insertStr bs k v) k = some v := by
  intro bs
  induction bs with
  | nil => intro k v; simp [insertStr, lookupStr]
  | cons kv rest ih =>
    intro k v
    obtain ⟨k0, v0⟩ := kv
    by_cases hk : k0 = k
    · subst hk; simp [insertStr, lookupStr]
    · simp only [insertStr, if_neg hk, lookupStr, if_neg hk]
      exact ih k v

theorem lookupStr_insertStr_ne : ∀ {bs : List (String × α)} {k kp : String} (v : α),
    kp ≠ k → lookupStr (insertStr bs k v) kp = lookupStr bs kp := by
  intro bs
  induction bs with
  | nil =>
    intro k kp v h
    have hne : k ≠ kp := fun hh => h hh.symm
    simp [insertStr, lookupStr, hne]
  | cons kv rest ih =>
    intro k kp v h
    obtain ⟨k0, v0⟩ := kv
    by_cases hk : k0 = k
    · subst hk
      have hk0 : k0 ≠ kp := fun hh => h (hh.symm)
      simp [insertStr, lookupStr, hk0]
    · simp only [insertStr, if_neg hk, lookupStr]
      by_cases hk0 : k0 = kp
      · simp [hk0]
      · simp only [if_neg hk0]
        exact ih v h

theorem keys_insertStr_mem : ∀ {bs : List (String × α)} {k : String} (v : α),
    k ∈ bs.map Prod.fst → (insertStr bs k v).map Prod.fst = bs.map Prod.fst := by
  intro bs
  induction bs with
  | nil => intro k v h; simp at h
  | cons kv rest ih =>
    intro k v h
    obtain ⟨k0, v0⟩ := kv
    by_cases hk : k0 = k
    · subst hk; simp [insertStr]
    · simp only [List.map_cons, List.mem_cons] at h
      rcases h with h1 | h2
      · exact absurd h1.symm hk
      · simp only [insertStr, if_neg hk, List.map_cons]
        rw [ih v h2]

theorem mem_insertStr : ∀ {bs : List (String × α)} {k : String} {v : α} {kb : String × α},
    kb ∈ insertStr bs k v → kb ∈ bs ∨ kb = (k, v) := by
  intro bs
  induction bs with
  | nil => intro k v kb h; simp [insertStr] at h; right; exact h
  | cons kv rest ih =>
    intro k v kb h
    obtain ⟨k0, v0⟩ := kv
    by_cases hk : k0 = k
    · subst hk
      have hp : kb = (k0, v) ∨ kb ∈ rest := by simpa [insertStr] using h
      rcases hp with h1 | h2
      · right; exact h1
      · left; exact List.mem_cons_of_mem _ h2
    · simp only [insertStr, if_neg hk, List.mem_cons] at h
      rcases h with h1 | h2
      · left; rw [h1]; exact List.mem_cons_self _ _
      · rcases ih h2 with h3 | h4
        · left; exact List.mem_cons_of_mem _ h3
        · right; exact h4

theorem lookup_of_mem_nodup : ∀ {bs : List (String × α)} {k : String} {v : α},
    (bs.map Prod.fst).Nodup → (k, v) ∈ bs → lookupStr bs k = some v := by
  intro bs
  induction bs with
  | nil => intro k v _ h; simp at h
  | cons kv rest ih =>
    intro k v hnd hmem
    obtain ⟨k0, v0⟩ := kv
    simp only [List.map_cons, List.nodup_cons] at hnd
    rcases List.mem_cons.mp hmem with h1 | h2
    · have hk : k = k0 := congrArg Prod.fst h1
      have hv : v = v0 := congrArg Prod.snd h1
      subst hk; subst hv
      simp [lookupStr]
    · have hk : k0 ≠ k := by
        intro hh
        subst hh
        exact hnd.1 (List.mem_map.mpr ⟨(k0, v), h2, rfl⟩)
      simp only [lookupStr, if_neg hk]
      exact ih hnd.2 h2

end AssocLemmas

/-! ## Rate limiter: verification -/

/-- Unfolding `Allow` on a key whose bucket exists. -/
theorem Allow_existing (rl : RateLimiter) (bs : Buckets) (key : String) (now : Int)
    (b : Bucket) (hb : lookupStr bs key = some b) :
    rl.Allow bs key now =
      if rl.interval ≤ now - b.lastSeen then
        (true, insertStr bs key { tokens := rl.requests, burst := rl.burst, lastSeen := now })
      else if 0 < b.tokens then
        (true, insertStr bs key { tokens := b.tokens - 1, burst := b.burst, lastSeen := b.lastSeen })
      else if 0 < b.burst then
        (true, insertStr bs key { tokens := b.tokens, burst := b.burst - 1, lastSeen := b.lastSeen })
      else
        (false, bs) := by
  simp only [RateLimiter.Allow, hb]

/-- Draining a single-key shard within the refill window: with `a` steady
and `b` burst tokens left and every call time strictly inside the current
interval, the first `a + b` calls are admitted, every further call is
refused, and the timestamp never moves. -/
theorem allowRun_drain (rl : RateLimiter) (key : String) (t0 : Int) :
    ∀ (ts : List Int) (a b : Nat),
      (∀ t ∈ ts, t - t0 < rl.interval) →
      ∃ a2 b2 : Nat,
        allowRun rl key [(key, ⟨(a : Int), (b : Int), t0⟩)] ts
          = (List.replicate (min ts.length (a + b)) true
              ++ List.replicate (ts.length - (a + b)) false,
             [(key, ⟨(a2 : Int), (b2 : Int), t0⟩)]) := by
  intro ts
  induction ts with
  | nil => intro a b _; exact ⟨a, b, by simp [allowRun]⟩
  | cons t ts ih =>
    intro a b hw
    have hwin : t - t0 < rl.interval := hw t (List.mem_cons_self _ _)
    have hw2 : ∀ u ∈ ts, u - t0 < rl.interval := fun u hu => hw u (List.mem_cons_of_mem _ hu)
    have hnr : ¬ rl.interval ≤ t - t0 := by omega
    have hlk : lookupStr [(key, (⟨(a : Int), (b : Int), t0⟩ : Bucket))] key
        = some ⟨(a : Int), (b : Int), t0⟩ := by simp [lookupStr]
    by_cases ha : 0 < a
    · have hstep : rl.Allow [(key, ⟨(a : Int), (b : Int), t0⟩)] key t
          = (true, [(key, ⟨((a - 1 : Nat) : Int), (b : Int), t0⟩)]) := by
        rw [Allow_existing rl _ key t _ hlk, if_neg hnr]
        have hai : (0 : Int) < ((a : Nat) : Int) := by exact_mod_cast ha
        have hc : ((a : Int) - 1) = ((a - 1 : Nat) : Int) := by omega
        dsimp only
        rw [if_pos hai, hc]
        simp [insertStr]
      obtain ⟨a2, b2, hrun⟩ := ih (a - 1) b hw2
      refine ⟨a2, b2, ?_⟩
      simp only [allowRun, hstep, hrun]
      have e1 : min (ts.length + 1) (a + b) = min ts.length (a - 1 + b) + 1 := by omega
      have e2 : (ts.length + 1) - (a + b) = ts.length - (a - 1 + b) := by omega
      simp only [List.length_cons, e1, e2, List.replicate_succ, List.cons_append]
    · have ha0 : a = 0 := by omega
      subst ha0
      by_cases hbp : 0 < b
      · have hstep : rl.Allow [(key, ⟨((0 : Nat) : Int), (b : Int), t0⟩)] key t
            = (true, [(key, ⟨((0 : Nat) : Int), ((b - 1 : Nat) : Int), t0⟩)]) := by
          rw [Allow_existing rl _ key t _ hlk, if_neg hnr]
          have hbi : (0 : Int) < ((b : Nat) : Int) := by exact_mod_cast hbp
          have hbz : ¬ (0 : Int) < ((0 : Nat) : Int) := by omega
          have hc : ((b : Int) - 1) = ((b - 1 : Nat) : Int) := by omega
          dsimp only
          rw [if_neg hbz, if_pos hbi, hc]
          simp [insertStr]
        obtain ⟨a2, b2, hrun⟩ := ih 0 (b - 1) hw2
        refine ⟨a2, b2, ?_⟩
        simp only [allowRun, hstep, hrun]
        have e1 : min (ts.length + 1) (0 + b) = min ts.length (0 + (b - 1)) + 1 := by omega
        have e2 : (ts.length + 1) - (0 + b) = ts.length - (0 + (b - 1)) := by omega
        simp only [List.length_cons, e1, e2, List.replicate_succ, List.cons_append]
      · have hb0 : b = 0 := by omega
        subst hb0
        have hstep : rl.Allow [(key, ⟨((0 : Nat) : Int), ((0 : Nat) : Int), t0⟩)] key t
            = (false, [(key, ⟨((0 : Nat) : Int), ((0 : Nat) : Int), t0⟩)]) := by
          rw [Allow_existing rl _ key t _ hlk, if_neg hnr]
          have hbz : ¬ (0 : Int) < ((0 : Nat) : Int) := by omega
          dsimp only
          rw [if_neg hbz, if_neg hbz]
        obtain ⟨a2, b2, hrun⟩ := ih 0 0 hw2
        refine ⟨a2, b2, ?_⟩
        simp only [allowRun, hstep, hrun]
        simp [List.replicate_succ]

/-- C1: for a fresh key on a fresh (non-full) shard of
`NewRateLimiter(steadyRequests = N, interval = I, burst = B)`, the
creation call at `t0` plus the following `N + B` calls, all issued within
one interval of `t0` (the bucket's last-seen timestamp, which the
non-refilling admissions never move), produce exactly `N + B` `true`
results followed by one `false`; and one more `Allow` issued a full
interval or more after `t0` returns `true` again. -/
theorem claim_C1 (N B M : Nat) (I : Int) (key : String) (t0 tl : Int) (ts : List Int)
    (hN : 1 ≤ N) (hM : 1 ≤ M) (_hI : 0 < I)
    (hlen : ts.length = N + B)
    (hw : ∀ t ∈ ts, t0 ≤ t ∧ t - t0 < I)
    (htl : I ≤ tl - t0) :
    (allowRun ⟨(N : Int), (B : Int), I, M⟩ key [] (t0 :: ts)).1
        = List.replicate (N + B) true ++ [false]
    ∧ (RateLimiter.Allow ⟨(N : Int), (B : Int), I, M⟩
          ((allowRun ⟨(N : Int), (B : Int), I, M⟩ key [] (t0 :: ts)).2) key tl).1 = true := by
  set rl : RateLimiter := ⟨(N : Int), (B : Int), I, M⟩ with hrl
  have hM0 : ¬ (rl.maxSize ≤ ([] : Buckets).length) := by
    simp only [List.length_nil]
    omega
  have hcreate : rl.Allow [] key t0
      = (true, [(key, ⟨((N - 1 : Nat) : Int), (B : Int), t0⟩)]) := by
    have hc : (rl.requests - 1) = ((N - 1 : Nat) : Int) := by
      simp only [hrl]
      omega
    simp only [RateLimiter.Allow, lookupStr, if_neg hM0, hc]
  obtain ⟨a2, b2, hrun⟩ :=
    allowRun_drain rl key t0 ts (N - 1) B (fun t ht => (hw t ht).2)
  have hstate : (allowRun rl key [] (t0 :: ts)).2 = [(key, ⟨(a2 : Int), (b2 : Int), t0⟩)] := by
    simp only [allowRun, hcreate, hrun]
  constructor
  · simp only [allowRun, hcreate, hrun]
    have e1 : min ts.length (N - 1 + B) = N - 1 + B := by omega
    have e2 : ts.length - (N - 1 + B) = 1 := by omega
    have e3 : N + B = (N - 1 + B) + 1 := by omega
    simp only [e1, e2, e3, List.replicate_succ, List.replicate_one, List.cons_append]
    simp
  · rw [hstate]
    have hlk : lookupStr [(key, (⟨(a2 : Int), (b2 : Int), t0⟩ : Bucket))] key
        = some ⟨(a2 : Int), (b2 : Int), t0⟩ := by simp [lookupStr]
    rw [Allow_existing rl _ key tl _ hlk]
    have : rl.interval ≤ tl - t0 := htl
    simp [this]

/-- Closed instance of C1: `N = 2`, `B = 1`, `I = 10`, calls at times
`0, 1, 2, 3` give `true, true, true, false`, and a call at `12` is
admitted again. -/
theorem claim_C1_witness :
    (allowRun ⟨(2 : Int), (1 : Int), 10, 5⟩ "k" [] (0 :: [1, 2, 3])).1
        = List.replicate (2 + 1) true ++ [false]
    ∧ (RateLimiter.Allow ⟨(2 : Int), (1 : Int), 10, 5⟩
          ((allowRun ⟨(2 : Int), (1 : Int), 10, 5⟩ "k" [] (0 :: [1, 2, 3])).2) "k" 12).1
        = true :=
  claim_C1 2 1 5 10 "k" 0 12 [1, 2, 3] (by decide) (by decide) (by decide)
    (by decide) (by decide) (by decide)

/-- C8: an `Allow` call that observes a full interval elapsed since an
existing bucket's last-seen timestamp admits the request, resets the
steady pool and the burst pool to their configured ceilings, and advances
the timestamp to the current time. -/
theorem claim_C8 (rl : RateLimiter) (bs : Buckets) (key : String) (now : Int) (b : Bucket)
    (hb : lookupStr bs key = some b)
    (h : rl.interval ≤ now - b.lastSeen) :
    (rl.Allow bs key now).1 = true
    ∧ lookupStr (rl.Allow bs key now).2 key
        = some { tokens := rl.requests, burst := rl.burst, lastSeen := now } := by
  rw [Allow_existing rl bs key now b hb]
  simp only [if_pos h]
  refine ⟨?_, lookupStr_insertStr_self bs key _⟩
  trivial


/-- Closed instance of C8 at a bucket that is stale by one interval. -/
theorem claim_C8_witness :
    ((⟨3, 1, 10, 100⟩ : RateLimiter).Allow [("k", ⟨1, 0, 0⟩)] "k" 10).1 = true
    ∧ lookupStr ((⟨3, 1, 10, 100⟩ : RateLimiter).Allow [("k", ⟨1, 0, 0⟩)] "k" 10).2 "k"
        = some { tokens := 3, burst := 1, lastSeen := 10 } :=
  claim_C8 ⟨3, 1, 10, 100⟩ [("k", ⟨1, 0, 0⟩)] "k" 10 ⟨1, 0, 0⟩ (by decide) (by decide)

/-- Token bounds of one bucket: pools are between zero and their
configured ceilings. -/
def BucketOK (rl : RateLimiter) (b : Bucket) : Prop :=
  0 ≤ b.tokens ∧ b.tokens ≤ rl.requests ∧ 0 ≤ b.burst ∧ b.burst ≤ rl.burst

/-- Every bucket of a shard satisfies `BucketOK`. -/
def BucketInv (rl : RateLimiter) (bs : Buckets) : Prop :=
  ∀ kb ∈ bs, BucketOK rl kb.2

/-- The shard map has no duplicate keys (automatic for a Go map). -/
def KeysNodup (bs : Buckets) : Prop :=
  (bs.map Prod.fst).Nodup

instance (rl : RateLimiter) (bs : Buckets) : Decidable (BucketInv rl bs) := by
  unfold BucketInv BucketOK
  infer_instance

instance (bs : Buckets) : Decidable (KeysNodup bs) := by
  unfold KeysNodup
  infer_instance

/-- C9: with a sane configuration (steady ceiling at least one —
creation consumes a token — nonnegative burst ceiling, nonnegative
interval), every `Allow` call preserves the bucket invariant: every
bucket's steady pool stays within `[0, steadyRequests]` and its burst pool
within `[0, burst]`; the shard map keeps distinct keys; and no bucket's
last-seen timestamp ever moves backwards (refills only advance it). -/
theorem claim_C9 (rl : RateLimiter) (bs : Buckets) (key : String) (now : Int)
    (h1 : 1 ≤ rl.requests) (h2 : 0 ≤ rl.burst) (h3 : 0 ≤ rl.interval)
    (hnd : KeysNodup bs) (hinv : BucketInv rl bs) :
    BucketInv rl (rl.Allow bs key now).2
    ∧ KeysNodup (rl.Allow bs key now).2
    ∧ ∀ k bOld bNew, lookupStr bs k = some bOld →
        lookupStr (rl.Allow bs key now).2 k = some bNew →
        bOld.lastSeen ≤ bNew.lastSeen := by
  rcases hlk : lookupStr bs key with _ | b
  · -- slow path: no bucket for the key yet
    have hkeyn : key ∉ bs.map Prod.fst := lookupStr_none_not_mem hlk
    have hstate : (rl.Allow bs key now).2
        = (key, ⟨rl.requests - 1, rl.burst, now⟩) ::
          (if rl.maxSize ≤ bs.length then evictOld (now - 2 * rl.interval) bs else bs) := by
      simp only [RateLimiter.Allow, hlk]
    rw [hstate]
    set bs1 := (if rl.maxSize ≤ bs.length then evictOld (now - 2 * rl.interval) bs else bs)
      with hbs1
    have hsub : ∀ kb, kb ∈ bs1 → kb ∈ bs := by
      intro kb hkb
      by_cases hms : rl.maxSize ≤ bs.length
      · rw [hbs1] at hkb
        simp only [if_pos hms] at hkb
        exact (List.mem_filter.mp hkb).1
      · rw [hbs1] at hkb
        simpa [if_neg hms] using hkb
    have hsubl : List.Sublist (bs1.map Prod.fst) (bs.map Prod.fst) := by
      by_cases hms : rl.maxSize ≤ bs.length
      · rw [hbs1]
        simp only [if_pos hms]
        exact (List.filter_sublist bs).map _
      · rw [hbs1]
        simp [if_neg hms]
    refine ⟨?_, ?_, ?_⟩
    · intro kb hkb
      rcases List.mem_cons.mp hkb with h | h
      · rw [h]
        exact ⟨by dsimp; omega, by dsimp; omega, by dsimp; omega, by dsimp; omega⟩
      · exact hinv _ (hsub _ h)
    · show (((key, (⟨rl.requests - 1, rl.burst, now⟩ : Bucket)) :: bs1).map Prod.fst).Nodup
      simp only [List.map_cons, List.nodup_cons]
      refine ⟨fun hmem => hkeyn (hsubl.subset hmem), ?_⟩
      exact List.Nodup.sublist hsubl hnd
    · intro k bOld bNew hOld hNew
      have hk : key ≠ k := by
        intro hh
        subst hh
        exact hkeyn (List.mem_map.mpr ⟨(key, bOld), lookupStr_mem hOld, rfl⟩)
      simp only [lookupStr, if_neg hk] at hNew
      have hmem2 : (k, bNew) ∈ bs := hsub _ (lookupStr_mem hNew)
      have heq := lookup_of_mem_nodup hnd hmem2
      rw [hOld] at heq
      injection heq with he
      rw [he]
  · -- fast path: the bucket exists
    have hmemb : (key, b) ∈ bs := lookupStr_mem hlk
    obtain ⟨o1, o2, o3, o4⟩ := hinv _ hmemb
    dsimp only at o1 o2 o3 o4
    have hkeys : key ∈ bs.map Prod.fst := List.mem_map.mpr ⟨(key, b), hmemb, rfl⟩
    have main : ∀ nb : Bucket, BucketOK rl nb → b.lastSeen ≤ nb.lastSeen →
        BucketInv rl (insertStr bs key nb) ∧ KeysNodup (insertStr bs key nb) ∧
        ∀ k bOld bNew, lookupStr bs k = some bOld →
          lookupStr (insertStr bs key nb) k = some bNew →
          bOld.lastSeen ≤ bNew.lastSeen := by
      intro nb hOK hls
      refine ⟨?_, ?_, ?_⟩
      · intro kb hkb
        rcases mem_insertStr hkb with h | h
        · exact hinv _ h
        · rw [h]
          exact hOK
      · show ((insertStr bs key nb).map Prod.fst).Nodup
        rw [keys_insertStr_mem _ hkeys]
        exact hnd
      · intro k bOld bNew hOld hNew
        by_cases hk : k = key
        · subst hk
          have hbOld : bOld = b := by
            have h12 : (some bOld : Option Bucket) = some b := by rw [← hOld, hlk]
            exact Option.some.inj h12
          have hbNew : bNew = nb := by
            have h12 : (some bNew : Option Bucket) = some nb := by
              rw [← hNew, lookupStr_insertStr_self]
            exact Option.some.inj h12
          rw [hbOld, hbNew]
          exact hls
        · have hne : lookupStr (insertStr bs key nb) k = lookupStr bs k :=
            lookupStr_insertStr_ne nb hk
          rw [hne, hOld] at hNew
          injection hNew with he
          rw [he]
    rw [Allow_existing rl bs key now b hlk]
    split_ifs with hr ht hb2
    · exact main ⟨rl.requests, rl.burst, now⟩
        ⟨by dsimp; omega, by dsimp; omega, by dsimp; omega, by dsimp; omega⟩
        (by dsimp; omega)
    · exact main ⟨b.tokens - 1, b.burst, b.lastSeen⟩
        ⟨by dsimp; omega, by dsimp; omega, by dsimp; omega, by dsimp; omega⟩
        (le_refl _)
    · exact main ⟨b.tokens, b.burst - 1, b.lastSeen⟩
        ⟨by dsimp; omega, by dsimp; omega, by dsimp; omega, by dsimp; omega⟩
        (le_refl _)
    · refine ⟨hinv, hnd, ?_⟩
      intro k bOld bNew hOld hNew
      dsimp only at hNew
      rw [hOld] at hNew
      injection hNew with he
      rw [he]

/-! ## Router: example registrations used by the claims -/

/-- Compiler stub for routes that carry no validator (never consulted). -/
def noRx : String → String → Bool := fun _ _ => false

/-- The matching semantics of the example validator `^\d+$` (the regex
engine is the external standard library; this is its `MatchString` on that
pattern): a nonempty all-digit string. -/
def digitsMatch (s : String) : Bool :=
  !(s.toList.isEmpty) && s.toList.all Char.isDigit

/-- Compiler used for the `^\d+$` example route. -/
def rxDigits : String → String → Bool := fun _ => digitsMatch

/-- Routes `/users/new` (literal) and `/users/:id` (parameter), both `GET`. -/
def litParamTree : RouteTree Nat :=
  addRoute noRx (addRoute noRx rootNode "/users/new" "GET" 1) "/users/:id" "GET" 2

/-- Routes `/users/new/edit` and `/users/:id/profile`, both `GET`: resolving
`/users/new/profile` must enter the literal `new` subtree, fail, and fall
back to the parameter branch. -/
def backtrackTree : RouteTree Nat :=
  addRoute noRx (addRoute noRx rootNode "/users/new/edit" "GET" 3) "/users/:id/profile" "GET" 4

/-- The wildcard route `/static/...`, `GET`. -/
def wildcardTree : RouteTree Nat :=
  addRoute noRx rootNode "/static/..." "GET" 7

/-- The validated route `/users/:id|^\d+$`, `GET`. -/
def regexTree : RouteTree Nat :=
  addRoute rxDigits rootNode "/users/:id|^\\d+$" "GET" 9

/-- Registration `Handle("/resource", h, GET)` — auto-registers `HEAD` as well. -/
def resourceTree : RouteTree Nat :=
  handle noRx rootNode "/resource" 5 ["GET"]

/-- Routes `/users` (fully static) and `/users/:id`: the `users` node is static
but carries a parameter child. -/
def staticParamTree : RouteTree Nat :=
  addRoute noRx (addRoute noRx rootNode "/users" "GET" 1) "/users/:id" "GET" 2

/-! ## Router: more association-list lemmas (parameter maps) -/

section ParamLemmas

variable {α : Type _}

theorem lookupStr_eq_none_of_not_mem : ∀ {m : List (String × α)} {k : String},
    k ∉ m.map Prod.fst → lookupStr m k = none := by
  intro m
  induction m with
  | nil => intro k _; rfl
  | cons kv rest ih =>
    intro k h
    obtain ⟨k0, v0⟩ := kv
    simp only [List.map_cons, List.mem_cons] at h
    push_neg at h
    have hne : k0 ≠ k := fun hh => h.1 hh.symm
    simp only [lookupStr, if_neg hne]
    exact ih h.2

theorem lookupStr_eraseStr_ne : ∀ {m : List (String × α)} {k kp : String},
    kp ≠ k → lookupStr (eraseStr m k) kp = lookupStr m kp := by
  intro m
  induction m with
  | nil => intro k kp _; rfl
  | cons kv rest ih =>
    intro k kp h
    obtain ⟨k0, v0⟩ := kv
    by_cases hk : k0 = k
    · subst hk
      have hk0 : k0 ≠ kp := fun hh => h (hh.symm)
      simp [eraseStr, lookupStr, hk0]
    · simp only [eraseStr, if_neg hk, lookupStr]
      by_cases hk0 : k0 = kp
      · simp [hk0]
      · simp only [if_neg hk0]
        exact ih h

theorem keys_eraseStr_sublist : ∀ (m : List (String × α)) (k : String),
    List.Sublist ((eraseStr m k).map Prod.fst) (m.map Prod.fst) := by
  intro m
  induction m with
  | nil => intro k; simp [eraseStr]
  | cons kv rest ih =>
    intro k
    obtain ⟨k0, v0⟩ := kv
    by_cases hk : k0 = k
    · simp only [eraseStr, if_pos hk, List.map_cons]
      exact List.sublist_cons_of_sublist _ (List.Sublist.refl _)
    · simp only [eraseStr, if_neg hk, List.map_cons]
      exact List.Sublist.cons₂ _ (ih k)

theorem lookupStr_eraseStr_self : ∀ {m : List (String × α)} {k : String},
    (m.map Prod.fst).Nodup → lookupStr (eraseStr m k) k = none := by
  intro m
  induction m with
  | nil => intro k _; rfl
  | cons kv rest ih =>
    intro k hnd
    obtain ⟨k0, v0⟩ := kv
    simp only [List.map_cons, List.nodup_cons] at hnd
    by_cases hk : k0 = k
    · subst hk
      simp only [eraseStr, if_pos rfl]
      exact lookupStr_eq_none_of_not_mem hnd.1
    · simp only [eraseStr, if_neg hk, lookupStr, if_neg hk]
      exact ih hnd.2

theorem mem_keys_insertStr : ∀ {m : List (String × α)} {k kp : String} {v : α},
    kp ∈ (insertStr m k v).map Prod.fst → kp ∈ m.map Prod.fst ∨ kp = k := by
  intro m k kp v h
  rcases List.mem_map.mp h with ⟨kb, hkb, hfst⟩
  rcases mem_insertStr hkb with h1 | h1
  · left
    exact List.mem_map.mpr ⟨kb, h1, hfst⟩
  · right
    rw [← hfst, h1]

theorem keys_insertStr_nodup : ∀ {m : List (String × α)} {k : String} {v : α},
    (m.map Prod.fst).Nodup → ((insertStr m k v).map Prod.fst).Nodup := by
  intro m
  induction m with
  | nil => intro k v _; simp [insertStr]
  | cons kv rest ih =>
    intro k v hnd
    obtain ⟨k0, v0⟩ := kv
    simp only [List.map_cons, List.nodup_cons] at hnd
    by_cases hk : k0 = k
    · subst hk
      simpa [insertStr] using hnd
    · simp only [insertStr, if_neg hk, List.map_cons, List.nodup_cons]
      refine ⟨?_, ih hnd.2⟩
      intro hmem
      rcases mem_keys_insertStr hmem with h1 | h1
      · exact hnd.1 h1
      · exact hk h1

end ParamLemmas

/-! ## Router: claims about resolution -/

/-- C3: wildcard behaviour — once descent reaches a wildcard node with
segments remaining, resolution is unconditional — it returns that node's
dispatch table immediately, binding the joined remaining segments to the
wildcard parameter `"..."`.  Concretely, with `/static/...` registered,
`/static/css/a.css` resolves with capture `"css/a.css"`, and `/static/`
(no trailing segment) succeeds as well, with the empty capture `""`
(an unbound `"..."` reads back as `""`), rather than failing. -/
theorem claim_C3 :
    (∀ (H : Type) (t : RouteTree H) (s : String) (r : List String) (params : Params),
      t.isWildcard = true →
      findHandler t (s :: r) params
        = (some t.methods, insertStr params "..." (String.intercalate "/" (s :: r))))
    ∧ serve wildcardTree "GET" "/static/css/a.css" = Outcome.handler 7 [("...", "css/a.css")]
    ∧ serve wildcardTree "GET" "/static/" = Outcome.handler 7 []
    ∧ getParam [] "..." = "" := by
  refine ⟨?_, by decide, by decide, rfl⟩
  intro H t s r params hw
  simp [findHandler, hw]

/-- Closed instance of the wildcard rule of C3 at a concrete node. -/
theorem claim_C3_witness :
    findHandler (RouteTree.node "w" none [] none "" true none : RouteTree Nat) ["a", "b"] []
      = (some none, [("...", "a/b")]) := by
  have h := claim_C3.1 Nat (RouteTree.node "w" none [] none "" true none) "a" ["b"] [] rfl
  exact h

/-- C4: validated parameters — when the only applicable branch is a
parameter child carrying a validator, a segment rejected by the validator
fails the whole resolution with the parameter map untouched (a NotFound
outcome, not a binding error), while an accepted segment is bound to the
parameter name.  Concretely for `/users/:id|^\d+$`: `/users/123` resolves
with `id="123"`, `/users/abc` is NotFound. -/
theorem claim_C4 :
    (∀ (H : Type) (t : RouteTree H) (s : String) (r : List String) (params : Params)
        (pc : RouteTree H) (f : String → Bool),
      t.isWildcard = false → lookupStr t.children s = none →
      t.paramChild = some pc → pc.rx = some f → f s = false →
      findHandler t (s :: r) params = (none, params))
    ∧ (∀ (H : Type) (t : RouteTree H) (s : String) (params : Params)
        (pc : RouteTree H) (f : String → Bool),
      t.isWildcard = false → lookupStr t.children s = none →
      t.paramChild = some pc → pc.rx = some f → f s = true →
      findHandler t [s] params = (some pc.methods, insertStr params pc.paramName s)
      ∧ getParam (insertStr params pc.paramName s) pc.paramName = s)
    ∧ serve regexTree "GET" "/users/123" = Outcome.handler 9 [("id", "123")]
    ∧ serve regexTree "GET" "/users/abc" = Outcome.notFound := by
  refine ⟨?_, ?_, by decide, by decide⟩
  · intro H t s r params pc f hw hcl hpc hrx hf
    simp [findHandler, hw, hcl, hpc, rxAccepts, hrx, hf]
  · intro H t s params pc f hw hcl hpc hrx hf
    constructor
    · simp [findHandler, hw, hcl, hpc, rxAccepts, hrx, hf]
    · unfold getParam
      rw [lookupStr_insertStr_self]
      rfl

/-- Closed instance of the validator rules of C4 at a concrete node. -/
theorem claim_C4_witness :
    findHandler
        (RouteTree.node "" none []
          (some (RouteTree.node "" none [] none "id" false (some digitsMatch)))
          "" false none : RouteTree Nat) ["abc"] []
      = (none, [])
    ∧ findHandler
        (RouteTree.node "" none []
          (some (RouteTree.node "" none [] none "id" false (some digitsMatch)))
          "" false none : RouteTree Nat) ["123"] []
      = (some none, [("id", "123")]) := by
  constructor
  · exact claim_C4.1 Nat
      (RouteTree.node "" none []
        (some (RouteTree.node "" none [] none "id" false (some digitsMatch))) "" false none)
      "abc" [] []
      (RouteTree.node "" none [] none "id" false (some digitsMatch)) digitsMatch
      rfl rfl rfl rfl (by decide)
  · exact (claim_C4.2.1 Nat
      (RouteTree.node "" none []
        (some (RouteTree.node "" none [] none "id" false (some digitsMatch))) "" false none)
      "123" []
      (RouteTree.node "" none [] none "id" false (some digitsMatch)) digitsMatch
      rfl rfl rfl rfl (by decide)).1

/-- Resolution keeps the parameter map free of duplicate keys: it only
writes through map assignment and map deletion. -/
theorem findHandler_params_nodup {H : Type} :
    ∀ (segs : List String) (t : RouteTree H) (params : Params),
      (params.map Prod.fst).Nodup →
      (((findHandler t segs params).2).map Prod.fst).Nodup := by
  intro segs
  induction segs with
  | nil => intro t params h; exact h
  | cons s r ih =>
    intro t params h
    by_cases hw : t.isWildcard = true
    · simp only [findHandler, hw, if_true]
      exact keys_insertStr_nodup h
    · simp only [Bool.not_eq_true] at hw
      rcases hcl : lookupStr t.children s with _ | c
      · rcases hpc : t.paramChild with _ | pc
        · simp only [findHandler, hw, Bool.false_eq_true, if_false, hcl, hpc]
          exact h
        · by_cases hrx : rxAccepts pc.rx s = true
          · rcases hin : findHandler pc r (insertStr params pc.paramName s) with ⟨o, p3⟩
            have hnd2 : ((insertStr params pc.paramName s).map Prod.fst).Nodup :=
              keys_insertStr_nodup h
            have hnd3 : (p3.map Prod.fst).Nodup := by
              have hp := ih pc (insertStr params pc.paramName s) hnd2
              rw [hin] at hp
              exact hp
            rcases o with _ | rr
            · simp only [findHandler, hw, Bool.false_eq_true, if_false, hcl, hpc, hrx,
                if_true, hin]
              exact List.Nodup.sublist (keys_eraseStr_sublist p3 pc.paramName) hnd3
            · simp only [findHandler, hw, Bool.false_eq_true, if_false, hcl, hpc, hrx,
                if_true, hin]
              exact hnd3
          · simp only [Bool.not_eq_true] at hrx
            simp only [findHandler, hw, Bool.false_eq_true, if_false, hcl, hpc, hrx]
            exact h
      · rcases hs : findHandler c r params with ⟨o1, p1⟩
        have hnd1 : (p1.map Prod.fst).Nodup := by
          have hp := ih c params h
          rw [hs] at hp
          exact hp
        rcases o1 with _ | rr
        · rcases hpc : t.paramChild with _ | pc
          · simp only [findHandler, hw, Bool.false_eq_true, if_false, hcl, hs, hpc]
            exact hnd1
          · by_cases hrx : rxAccepts pc.rx s = true
            · rcases hin : findHandler pc r (insertStr p1 pc.paramName s) with ⟨o2, p3⟩
              have hnd2 : ((insertStr p1 pc.paramName s).map Prod.fst).Nodup :=
                keys_insertStr_nodup hnd1
              have hnd3 : (p3.map Prod.fst).Nodup := by
                have hp := ih pc (insertStr p1 pc.paramName s) hnd2
                rw [hin] at hp
                exact hp
              rcases o2 with _ | rr2
              · simp only [findHandler, hw, Bool.false_eq_true, if_false, hcl, hs, hpc,
                  hrx, if_true, hin]
                exact List.Nodup.sublist (keys_eraseStr_sublist p3 pc.paramName) hnd3
              · simp only [findHandler, hw, Bool.false_eq_true, if_false, hcl, hs, hpc,
                  hrx, if_true, hin]
                exact hnd3
            · simp only [Bool.not_eq_true] at hrx
              simp only [findHandler, hw, Bool.false_eq_true, if_false, hcl, hs, hpc, hrx]
              exact hnd1
        · simp only [findHandler, hw, Bool.false_eq_true, if_false, hcl, hs]
          exact hnd1

/-- Binding removal on failure: a failed `findHandler` call leaves no new
binding in the parameter map — every key either still has its old value or
has been deleted by the failure clean-up. -/
theorem findHandler_fail_params {H : Type} :
    ∀ (segs : List String) (t : RouteTree H) (params : Params) (k : String),
      (params.map Prod.fst).Nodup →
      (findHandler t segs params).1 = none →
      lookupStr ((findHandler t segs params).2) k = lookupStr params k
      ∨ lookupStr ((findHandler t segs params).2) k = none := by
  intro segs
  induction segs with
  | nil =>
    intro t params k _ hfail
    simp [findHandler] at hfail
  | cons s r ih =>
    intro t params k hnd hfail
    by_cases hw : t.isWildcard = true
    · simp [findHandler, hw] at hfail
    · simp only [Bool.not_eq_true] at hw
      rcases hcl : lookupStr t.children s with _ | c
      · rcases hpc : t.paramChild with _ | pc
        · simp only [findHandler, hw, Bool.false_eq_true, if_false, hcl, hpc]
          left
          trivial
        · by_cases hrx : rxAccepts pc.rx s = true
          · rcases hin : findHandler pc r (insertStr params pc.paramName s) with ⟨o, p3⟩
            have hnd2 : ((insertStr params pc.paramName s).map Prod.fst).Nodup :=
              keys_insertStr_nodup hnd
            have hnd3 : (p3.map Prod.fst).Nodup := by
              have hp := findHandler_params_nodup r pc (insertStr params pc.paramName s) hnd2
              rw [hin] at hp
              exact hp
            rcases o with _ | rr
            · simp only [findHandler, hw, Bool.false_eq_true, if_false, hcl, hpc, hrx,
                if_true, hin]
              by_cases hk : k = pc.paramName
              · right
                subst hk
                exact lookupStr_eraseStr_self hnd3
              · rw [lookupStr_eraseStr_ne hk]
                have ihp := ih pc (insertStr params pc.paramName s) k hnd2 (by rw [hin])
                rw [hin] at ihp
                rcases ihp with h1 | h1
                · rw [h1, lookupStr_insertStr_ne _ hk]
                  left
                  rfl
                · right
                  exact h1
            · simp [findHandler, hw, hcl, hpc, hrx, hin] at hfail
          · simp only [Bool.not_eq_true] at hrx
            simp only [findHandler, hw, Bool.false_eq_true, if_false, hcl, hpc, hrx]
            left
            trivial
      · rcases hs : findHandler c r params with ⟨o1, p1⟩
        have hnd1 : (p1.map Prod.fst).Nodup := by
          have hp := findHandler_params_nodup r c params hnd
          rw [hs] at hp
          exact hp
        rcases o1 with _ | rr
        · have ihc := ih c params k hnd (by rw [hs])
          rw [hs] at ihc
          rcases hpc : t.paramChild with _ | pc
          · simp only [findHandler, hw, Bool.false_eq_true, if_false, hcl, hs, hpc]
            exact ihc
          · by_cases hrx : rxAccepts pc.rx s = true
            · rcases hin : findHandler pc r (insertStr p1 pc.paramName s) with ⟨o2, p3⟩
              have hnd2 : ((insertStr p1 pc.paramName s).map Prod.fst).Nodup :=
                keys_insertStr_nodup hnd1
              have hnd3 : (p3.map Prod.fst).Nodup := by
                have hp := findHandler_params_nodup r pc (insertStr p1 pc.paramName s) hnd2
                rw [hin] at hp
                exact hp
              rcases o2 with _ | rr2
              · simp only [findHandler, hw, Bool.false_eq_true, if_false, hcl, hs, hpc,
                  hrx, if_true, hin]
                by_cases hk : k = pc.paramName
                · right
                  subst hk
                  exact lookupStr_eraseStr_self hnd3
                · rw [lookupStr_eraseStr_ne hk]
                  have ihp := ih pc (insertStr p1 pc.paramName s) k hnd2 (by rw [hin])
                  rw [hin] at ihp
                  rcases ihp with h1 | h1
                  · rw [h1, lookupStr_insertStr_ne _ hk]
                    exact ihc
                  · right
                    exact h1
              · simp [findHandler, hw, hcl, hs, hpc, hrx, hin] at hfail
            · simp only [Bool.not_eq_true] at hrx
              simp only [findHandler, hw, Bool.false_eq_true, if_false, hcl, hs, hpc, hrx]
              exact ihc
        · simp [findHandler, hw, hcl, hs] at hfail

/-- C2: literal-over-parameter order with local backtracking — at any
non-wildcard node, when the literal child for the current segment resolves
its subtree, that result is returned and the parameter branch is never
consulted; when the literal subtree fails, resolution falls back to the
parameter branch at the same level, on a map from which the failed branch
removed every binding it made (a failed call leaves each key with its old
value or deleted — it never leaves a new binding, assuming the
duplicate-free key invariant every real parameter map has).  Hence with
`/users/new` and `/users/:id` both registered, `/users/new` resolves to
the literal handler with no binding; and with `/users/new/edit` and
`/users/:id/profile` registered, `/users/new/profile` backtracks from the
literal `new` subtree into the parameter branch, binding `id="new"`. -/
theorem claim_C2 :
    (∀ (H : Type) (t : RouteTree H) (s : String) (r : List String) (params : Params)
        (c : RouteTree H) (res : Option (MethodHandler H)) (pp : Params),
      t.isWildcard = false →
      lookupStr t.children s = some c →
      findHandler c r params = (some res, pp) →
      findHandler t (s :: r) params = (some res, pp))
    ∧ (∀ (H : Type) (t : RouteTree H) (s : String) (r : List String) (params : Params)
        (c pc : RouteTree H) (p1 : Params) (res : Option (MethodHandler H)) (p2 : Params),
      t.isWildcard = false →
      lookupStr t.children s = some c →
      findHandler c r params = (none, p1) →
      t.paramChild = some pc →
      rxAccepts pc.rx s = true →
      findHandler pc r (insertStr p1 pc.paramName s) = (some res, p2) →
      findHandler t (s :: r) params = (some res, p2))
    ∧ (∀ (H : Type) (t : RouteTree H) (segs : List String) (params : Params) (k : String),
      (params.map Prod.fst).Nodup →
      (findHandler t segs params).1 = none →
      lookupStr ((findHandler t segs params).2) k = lookupStr params k
      ∨ lookupStr ((findHandler t segs params).2) k = none)
    ∧ serve litParamTree "GET" "/users/new" = Outcome.handler 1 []
    ∧ serve backtrackTree "GET" "/users/new/profile" = Outcome.handler 4 [("id", "new")] := by
  refine ⟨?_, ?_, ?_, by decide, by decide⟩
  · intro H t s r params c res pp hw hc hf
    simp [findHandler, hw, hc, hf]
  · intro H t s r params c pc p1 res p2 hw hc hf1 hpc hrx hf2
    simp [findHandler, hw, hc, hf1, hpc, hrx, hf2]
  · intro H t segs params k hnd hfail
    exact findHandler_fail_params segs t params k hnd hfail

/-- Closed instance of the literal-first rule of C2 at a concrete node. -/
theorem claim_C2_witness :
    findHandler
        (RouteTree.node "" none
          [("a", RouteTree.node "a" (some ⟨[("GET", 1)], 1, "GET, OPTIONS"⟩) [] none "" false none)]
          (some (RouteTree.node "" (some ⟨[("GET", 2)], 1, "GET, OPTIONS"⟩) [] none "id" false none))
          "" false none : RouteTree Nat) ["a"] []
      = (some (some ⟨[("GET", 1)], 1, "GET, OPTIONS"⟩), []) := by
  have h := claim_C2.1 Nat
    (RouteTree.node "" none
      [("a", RouteTree.node "a" (some ⟨[("GET", 1)], 1, "GET, OPTIONS"⟩) [] none "" false none)]
      (some (RouteTree.node "" (some ⟨[("GET", 2)], 1, "GET, OPTIONS"⟩) [] none "id" false none))
      "" false none)
    "a" [] []
    (RouteTree.node "a" (some ⟨[("GET", 1)], 1, "GET, OPTIONS"⟩) [] none "" false none)
    (some ⟨[("GET", 1)], 1, "GET, OPTIONS"⟩) []
    rfl rfl rfl
  exact h

/-- C5: method-mismatch dispatch — when the path resolves to a node
whose table lacks the request method, the advertised `Allow` value is the
table's precomputed `allowedList`, the Options fallback is chosen exactly
for an `OPTIONS` request and the MethodNotAllowed fallback for any other
method.  Concretely, registering `/resource` for `GET` only (which
auto-adds `HEAD`) and requesting `POST` advertises exactly
`{GET, HEAD, OPTIONS}` — order-independent, witnessed by the permutation
of the split header — and an `OPTIONS` request takes the Options
fallback with the same `Allow` value. -/
theorem claim_C5 :
    (∀ (H : Type) (root : RouteTree H) (method path : String)
        (mh : MethodHandler H) (ps : Params),
      findHandler root (getPathSegments (if path = "" then "/" else path)) []
        = (some (some mh), ps) →
      lookupStr mh.handlers method = none →
      serve root method path
        = if method = "OPTIONS" then Outcome.options mh.allowedList
          else Outcome.methodNotAllowed mh.allowedList)
    ∧ serve resourceTree "POST" "/resource" = Outcome.methodNotAllowed "GET, HEAD, OPTIONS"
    ∧ List.Perm (splitCommaSpace "GET, HEAD, OPTIONS") ["GET", "HEAD", "OPTIONS"]
    ∧ serve resourceTree "OPTIONS" "/resource" = Outcome.options "GET, HEAD, OPTIONS" := by
  refine ⟨?_, by decide, by decide, by decide⟩
  intro H root method path mh ps hfind hlk
  simp only [serve, hfind, hlk]

/-- Closed instance of the fallback rule of C5 at a concrete table. -/
theorem claim_C5_witness :
    serve (RouteTree.node "" (some ⟨[("GET", 9)], 1, "GET, OPTIONS"⟩) [] none "" false none
        : RouteTree Nat) "POST" "/"
      = Outcome.methodNotAllowed "GET, OPTIONS" := by
  have h := claim_C5.1 Nat
    (RouteTree.node "" (some ⟨[("GET", 9)], 1, "GET, OPTIONS"⟩) [] none "" false none)
    "POST" "/" ⟨[("GET", 9)], 1, "GET, OPTIONS"⟩ [] (by decide) (by decide)
  simpa using h

/-- The `setRx` helper only changes the validator field. -/
theorem setRx_paramName {H : Type} (t : RouteTree H) (r : Option (String → Bool)) :
    (setRx t r).paramName = t.paramName := by
  cases t
  rfl

/-- The `setRx` helper only changes the validator field. -/
theorem setRx_children {H : Type} (t : RouteTree H) (r : Option (String → Bool)) :
    (setRx t r).children = t.children := by
  cases t
  rfl

/-- The `setRx` helper installs the given validator. -/
theorem setRx_rx {H : Type} (t : RouteTree H) (r : Option (String → Bool)) :
    (setRx t r).rx = r := by
  cases t
  rfl

/-- The `addMethodsTo` helper only changes the dispatch table. -/
theorem addMethodsTo_paramName {H : Type} (t : RouteTree H) (m : String) (h : H) :
    (addMethodsTo t m h).paramName = t.paramName := by
  cases t
  rfl

/-- The `addMethodsTo` helper only changes the dispatch table. -/
theorem addMethodsTo_children {H : Type} (t : RouteTree H) (m : String) (h : H) :
    (addMethodsTo t m h).children = t.children := by
  cases t
  rfl

/-- The `addMethodsTo` helper only changes the dispatch table. -/
theorem addMethodsTo_rx {H : Type} (t : RouteTree H) (m : String) (h : H) :
    (addMethodsTo t m h).rx = t.rx := by
  cases t
  rfl

/-- C10: a tree position has a single parameter slot — registering a
parameterized segment at a node that already has a parameter child reuses
that child — no second slot appears, the literal-children map is
untouched, and the slot even keeps its previously registered parameter
name — while a registration that carries a validator pattern overwrites
the slot's validator and one without a pattern leaves the old validator in
place. -/
theorem claim_C10 :
    ∀ (H : Type) (compile : String → String → Bool) (t pc : RouteTree H)
      (seg m : String) (h : H),
      t.paramChild = some pc →
      strHasColon seg = true →
      (cutBar (dropFirst seg)).1 ≠ "" →
      ∃ pcn, (addRouteSegs compile t [seg] m h).paramChild = some pcn
        ∧ (addRouteSegs compile t [seg] m h).children = t.children
        ∧ pcn.paramName = pc.paramName
        ∧ pcn.children = pc.children
        ∧ ((cutBar (dropFirst seg)).2.2 = true →
            pcn.rx = some (compile (cutBar (dropFirst seg)).2.1))
        ∧ ((cutBar (dropFirst seg)).2.2 = false → pcn.rx = pc.rx) := by
  intro H compile t pc seg m h hpc hcolon hname
  have hdots : ¬ (seg = "...") := by
    intro hh
    rw [hh] at hcolon
    exact absurd hcolon (by decide)
  obtain ⟨seg0, m0, ch0, pc0, pn0, wc0, rx0⟩ := t
  have hpc0 : pc0 = some pc := hpc
  subst hpc0
  by_cases hrx : (cutBar (dropFirst seg)).2.2 = true
  · refine ⟨addMethodsTo (setRx pc (some (compile (cutBar (dropFirst seg)).2.1))) m h,
      ?_, ?_, ?_, ?_, ?_, ?_⟩
    · simp [addRouteSegs, hdots, hcolon, hname, hrx, findOrCreateChild,
        RouteTree.paramChild, RouteTree.children]
    · simp [addRouteSegs, hdots, hcolon, hname, hrx, findOrCreateChild,
        RouteTree.paramChild, RouteTree.children]
    · rw [addMethodsTo_paramName, setRx_paramName]
    · rw [addMethodsTo_children, setRx_children]
    · intro _
      rw [addMethodsTo_rx, setRx_rx]
    · intro hf
      rw [hrx] at hf
      cases hf
  · rw [Bool.not_eq_true] at hrx
    refine ⟨addMethodsTo pc m h, ?_, ?_, ?_, ?_, ?_, ?_⟩
    · simp [addRouteSegs, hdots, hcolon, hname, hrx, findOrCreateChild,
        RouteTree.paramChild, RouteTree.children]
    · simp [addRouteSegs, hdots, hcolon, hname, hrx, findOrCreateChild,
        RouteTree.paramChild, RouteTree.children]
    · rw [addMethodsTo_paramName]
    · rw [addMethodsTo_children]
    · intro hf
      rw [hrx] at hf
      cases hf
    · intro _
      rw [addMethodsTo_rx]

/-- Closed instance of C10: re-registering `:uid|^\d+$` over an existing
`:id` slot keeps the name `id`, touches no literal child, and installs the
new validator. -/
theorem claim_C10_witness :
    ∃ pcn, (addRouteSegs rxDigits
        (RouteTree.node "" none [] (some (RouteTree.node "" none [] none "id" false none))
          "" false none : RouteTree Nat)
        [":uid|^\\d+$"] "GET" 3).paramChild = some pcn
      ∧ (addRouteSegs rxDigits
          (RouteTree.node "" none [] (some (RouteTree.node "" none [] none "id" false none))
            "" false none : RouteTree Nat)
          [":uid|^\\d+$"] "GET" 3).children
        = (RouteTree.node "" none [] (some (RouteTree.node "" none [] none "id" false none))
            "" false none : RouteTree Nat).children
      ∧ pcn.paramName = (RouteTree.node "" none [] none "id" false none : RouteTree Nat).paramName
      ∧ pcn.children = (RouteTree.node "" none [] none "id" false none : RouteTree Nat).children
      ∧ ((cutBar (dropFirst ":uid|^\\d+$")).2.2 = true →
          pcn.rx = some (rxDigits (cutBar (dropFirst ":uid|^\\d+$")).2.1))
      ∧ ((cutBar (dropFirst ":uid|^\\d+$")).2.2 = false →
          pcn.rx = (RouteTree.node "" none [] none "id" false none : RouteTree Nat).rx) :=
  claim_C10 Nat rxDigits _ _ ":uid|^\\d+$" "GET" 3 rfl (by decide) (by decide)

/-! ## The static index: soundness against tree descent (C7) -/

/-- The prefix accumulation of `buildStaticPaths` along a segment list. -/
def joinPre : String → List String → String
  | pre, [] => pre
  | pre, s :: r => joinPre (extendPfx pre s) r

/-- A literal-only descent chain from `t` along `segs` to `nd` on which no
node has a parameter child or the wildcard marker. -/
def cleanDescent {H : Type} : RouteTree H → List String → RouteTree H → Prop
  | t, [], nd => t = nd ∧ t.paramChild = none ∧ t.isWildcard = false
  | t, s :: r, nd =>
    t.paramChild = none ∧ t.isWildcard = false ∧
      ∃ c, lookupStr t.children s = some c ∧ cleanDescent c r nd

/-- Membership in the children walk comes from one child's walk. -/
theorem buildStaticPathsList_mem {H : Type} :
    ∀ (ch : List (String × RouteTree H)) (pre p : String) (nd : RouteTree H),
      (p, nd) ∈ buildStaticPathsList ch pre →
      ∃ s c, (s, c) ∈ ch ∧ (p, nd) ∈ buildStaticPaths c (extendPfx pre s) := by
  intro ch
  induction ch with
  | nil => intro pre p nd h; simp [buildStaticPathsList] at h
  | cons sc rest ih =>
    intro pre p nd h
    obtain ⟨s0, c0⟩ := sc
    simp only [buildStaticPathsList] at h
    rcases List.mem_append.mp h with h1 | h2
    · exact ⟨s0, c0, List.mem_cons_self _ _, h1⟩
    · obtain ⟨s, c, hsc, hm⟩ := ih pre p nd h2
      exact ⟨s, c, List.mem_cons_of_mem _ hsc, hm⟩

/-- A member of a well-formed children list is a well-formed tree. -/
theorem childrenWF_mem {H : Type} :
    ∀ {ch : List (String × RouteTree H)} {s : String} {c : RouteTree H},
      childrenWF ch = true → (s, c) ∈ ch → treeWF c = true := by
  intro ch
  induction ch with
  | nil => intro s c _ h; simp at h
  | cons sc rest ih =>
    intro s c hwf hm
    obtain ⟨s0, c0⟩ := sc
    simp only [childrenWF, Bool.and_eq_true] at hwf
    rcases List.mem_cons.mp hm with h1 | h2
    · have hc : c = c0 := congrArg Prod.snd h1
      rw [hc]
      exact hwf.1
    · exact ih hwf.2 h2

/-- A child is smaller than its parent node. -/
theorem sizeOf_child_lt {H : Type} {ch : List (String × RouteTree H)} {s : String}
    {c : RouteTree H} (hm : (s, c) ∈ ch)
    (seg0 : String) (m0 : Option (MethodHandler H)) (pc : Option (RouteTree H))
    (pn : String) (wc : Bool) (rx : Option (String → Bool)) :
    sizeOf c < sizeOf (RouteTree.node seg0 m0 ch pc pn wc rx) := by
  have h2 := List.sizeOf_lt_of_mem hm
  have h3 : sizeOf c < sizeOf (s, c) := by
    simp
  have h4 : sizeOf ch < sizeOf (RouteTree.node seg0 m0 ch pc pn wc rx) := by
    simp
    omega
  omega

/-- Soundness of the static-index walk: every entry `(p, nd)` of
`buildStaticPaths t pre` arises from a literal-only descent chain that is
free of parameter children and wildcard markers, whose accumulated prefix
is `p`, and whose final node `nd` has a dispatch table. -/
theorem buildStaticPaths_sound {H : Type} :
    ∀ (n : Nat) (t : RouteTree H) (pre p : String) (nd : RouteTree H),
      sizeOf t ≤ n → treeWF t = true →
      (p, nd) ∈ buildStaticPaths t pre →
      ∃ segs, p = joinPre pre segs ∧ cleanDescent t segs nd
        ∧ nd.methods.isSome = true := by
  intro n
  induction n with
  | zero =>
    intro t pre p nd hsz _ _
    obtain ⟨seg0, m0, ch, pc, pn, wc, rx⟩ := t
    simp at hsz
  | succ n ih =>
    intro t pre p nd hsz hwf hmem
    obtain ⟨seg0, m0, ch, pc, pn, wc, rx⟩ := t
    by_cases hguard : (pc.isSome || wc) = true
    · simp [buildStaticPaths, hguard] at hmem
    · have hpc : pc = none := by
        rcases pc with _ | x
        · rfl
        · simp at hguard
      have hwc : wc = false := by
        rcases wc with _ | _
        · rfl
        · simp at hguard
      subst hpc
      subst hwc
      simp only [treeWF, Bool.and_eq_true] at hwf
      have hnodup : (ch.map Prod.fst).Nodup := by
        have hb := hwf.1.1
        simpa using hb
      have hrest : (p, nd) ∈ buildStaticPathsList ch pre →
          ∃ segs, p = joinPre pre segs
            ∧ cleanDescent (RouteTree.node seg0 m0 ch none pn false rx) segs nd
            ∧ nd.methods.isSome = true := by
        intro h2
        obtain ⟨s, c, hsc, hmemc⟩ := buildStaticPathsList_mem ch pre p nd h2
        have hwfc : treeWF c = true := childrenWF_mem hwf.1.2 hsc
        have hszc : sizeOf c ≤ n := by
          have hlt := sizeOf_child_lt hsc seg0 m0 none pn false rx
          omega
        obtain ⟨segs, hp2, hcd, hsome⟩ := ih c (extendPfx pre s) p nd hszc hwfc hmemc
        refine ⟨s :: segs, hp2, ?_, hsome⟩
        exact ⟨rfl, rfl, c, lookup_of_mem_nodup hnodup hsc, hcd⟩
      rcases m0 with _ | mh0
      · have hmem2 : (p, nd) ∈ buildStaticPathsList ch pre := by
          simpa [buildStaticPaths] using hmem
        exact hrest hmem2
      · have hmem2 : (p, nd) = (pre, RouteTree.node seg0 (some mh0) ch none pn false rx)
            ∨ (p, nd) ∈ buildStaticPathsList ch pre := by
          have hx : (p, nd) ∈
              (pre, RouteTree.node seg0 (some mh0) ch none pn false rx)
                :: buildStaticPathsList ch pre := by
            simpa [buildStaticPaths] using hmem
          exact List.mem_cons.mp hx
        rcases hmem2 with h1 | h2
        · have hp : p = pre := congrArg Prod.fst h1
          have hnd : nd = RouteTree.node seg0 (some mh0) ch none pn false rx :=
            congrArg Prod.snd h1
          refine ⟨[], hp, ⟨hnd.symm, rfl, rfl⟩, ?_⟩
          rw [hnd]
          rfl
        · exact hrest h2

/-- Tree descent along a clean chain returns exactly the chain's final
node's dispatch table, with the parameter map untouched. -/
theorem findHandler_of_cleanDescent {H : Type} :
    ∀ (segs : List String) (t nd : RouteTree H),
      cleanDescent t segs nd →
      ∀ params, findHandler t segs params = (some nd.methods, params) := by
  intro segs
  induction segs with
  | nil =>
    intro t nd hcd params
    obtain ⟨h1, _, _⟩ := hcd
    simp [findHandler, h1]
  | cons s r ih =>
    intro t nd hcd params
    obtain ⟨hpc, hwc, c, hlk, hcd2⟩ := hcd
    have hr := ih c nd hcd2 params
    simp [findHandler, hwc, hlk, hr]

/-- C7 (amended): every entry of the static index built by
`precomputeStaticPaths` is sound: its key is the accumulated prefix of a
literal-only descent chain on which no node carries a parameter child or
wildcard marker (so no path at or below such a node appears in the
index), its value is a node with a dispatch table, and tree descent on
those segments yields exactly that table — an index hit and a tree
descent agree.  (The original claim's converse — that *every* registered
fully static path is indexed — is false: see the counterexample, where a
static node is skipped because it carries a parameter child.) -/
theorem claim_C7 :
    ∀ (H : Type) (root : RouteTree H), treeWF root = true →
      ∀ (p : String) (nd : RouteTree H), (p, nd) ∈ precomputeStaticPaths root →
        ∃ segs, p = joinPre "" segs
          ∧ cleanDescent root segs nd
          ∧ nd.methods.isSome = true
          ∧ ∀ params, findHandler root segs params = (some nd.methods, params) := by
  intro H root hwf p nd hmem
  obtain ⟨segs, hp, hcd, hsome⟩ :=
    buildStaticPaths_sound (sizeOf root) root "" p nd (le_refl _) hwf hmem
  exact ⟨segs, hp, hcd, hsome, findHandler_of_cleanDescent segs root nd hcd⟩

/-- C7, counterexample to the original claim: with `/users` (fully
static, `GET`) and `/users/:id` both registered, `users` is a registered
fully static path whose tree descent resolves a table carrying the `GET`
handler — yet the static index is empty, because the walk stops at the
`users` node (it has a parameter child).  So the index does *not* map the
normalized form of every registered fully static path. -/
theorem claim_C7_counterexample :
    precomputeStaticPaths staticParamTree = []
    ∧ lookupStr (precomputeStaticPaths staticParamTree) "users" = none
    ∧ (((findHandler staticParamTree ["users"] ([] : Params)).1.bind id).bind
        (fun mh => lookupStr mh.handlers "GET")) = some 1 := by
  refine ⟨rfl, rfl, by decide⟩

/-- The `resource` node produced by `Handle("/resource", 5, GET)`. -/
def resourceNode : RouteTree Nat :=
  RouteTree.node "resource"
    (some ⟨[("GET", 5), ("HEAD", 5)], 33, "GET, HEAD, OPTIONS"⟩) [] none "" false none

/-- Closed instance of the amended C7 on the `/resource` registration. -/
theorem claim_C7_witness :
    ∃ segs, "resource" = joinPre "" segs
      ∧ cleanDescent resourceTree segs resourceNode
      ∧ resourceNode.methods.isSome = true
      ∧ ∀ params, findHandler resourceTree segs params
          = (some resourceNode.methods, params) := by
  refine claim_C7 Nat resourceTree (by decide) "resource" resourceNode ?_
  have hlist : precomputeStaticPaths resourceTree = [("resource", resourceNode)] := rfl
  rw [hlist]
  exact List.mem_singleton.mpr rfl

/-! ## Registration/resolution agreement for static patterns (C6) -/

/-- No wildcard marker on the descent chain of `segs` from `t` (the chain
`findHandler` would take through literal children). -/
def wildFreeChain {H : Type} : RouteTree H → List String → Prop
  | _, [] => True
  | t, s :: r =>
    t.isWildcard = false ∧ ∀ c, lookupStr t.children s = some c → wildFreeChain c r

/-- A freshly created node has a wildcard-free chain for any segments. -/
theorem wildFreeChain_blank {H : Type} (sg pn : String) :
    ∀ (rest : List String), wildFreeChain (blankNode sg pn : RouteTree H) rest := by
  intro rest
  cases rest with
  | nil => trivial
  | cons r1 r2 =>
    refine ⟨rfl, ?_⟩
    intro c hc
    simp [blankNode, RouteTree.children, lookupStr] at hc

/-- The `addMethodsTo` helper registers the handler in the node's table. -/
theorem addMethodsTo_methods {H : Type} (t : RouteTree H) (m : String) (h : H) :
    (addMethodsTo t m h).methods
      = some (addHandlerMH (t.methods.getD newMethodHandler) m h) := by
  cases t
  rfl

/-- Updating the allowed list does not change the handler table. -/
theorem addHandlerMH_lookup_self {H : Type} (mh : MethodHandler H) (m : String) (h : H) :
    lookupStr (addHandlerMH mh m h).handlers m = some h := by
  simp only [addHandlerMH, updateAllowedList]
  exact lookupStr_insertStr_self _ m h

/-- Registering a nonempty, fully literal segment list and then resolving
the same segments (with no wildcard marker on the chain) finds the
registered handler under its method, with no parameter bound; and the
chain stays wildcard-free, so registrations for further methods keep
resolving. -/
theorem addRoute_static_reg {H : Type} (compile : String → String → Bool) :
    ∀ (segs : List String) (t : RouteTree H) (m : String) (hh : H),
      segs ≠ [] →
      (∀ s ∈ segs, strHasColon s = false ∧ s ≠ "...") →
      wildFreeChain t segs →
      (∃ mh, findHandler (addRouteSegs compile t segs m hh) segs []
          = (some (some mh), [])
        ∧ lookupStr mh.handlers m = some hh)
      ∧ wildFreeChain (addRouteSegs compile t segs m hh) segs := by
  intro segs
  induction segs with
  | nil => intro t m hh hne _ _; exact absurd rfl hne
  | cons s rest ih =>
    intro t m hh _ hstat hchain
    have hs := hstat s (List.mem_cons_self _ _)
    have hrest : ∀ u ∈ rest, strHasColon u = false ∧ u ≠ "..." :=
      fun u hu => hstat u (List.mem_cons_of_mem _ hu)
    obtain ⟨seg0, m0, ch, pc, pn, wc, rx⟩ := t
    obtain ⟨hwc, hnext⟩ := hchain
    simp only [RouteTree.isWildcard] at hwc
    subst hwc
    simp only [RouteTree.children] at hnext
    have hchain0 : wildFreeChain ((lookupStr ch s).getD (blankNode s "")) rest := by
      rcases hlk : lookupStr ch s with _ | c
      · simp only [hlk, Option.getD_none]
        exact wildFreeChain_blank s "" rest
      · simp only [hlk, Option.getD_some]
        exact hnext c hlk
    rcases rest with _ | ⟨r1, r2⟩
    · -- terminal segment: the handler is added at the child
      have hadd : addRouteSegs compile (RouteTree.node seg0 m0 ch pc pn false rx) [s] m hh
          = RouteTree.node seg0 m0
              (insertStr ch s (addMethodsTo ((lookupStr ch s).getD (blankNode s "")) m hh))
              pc pn false rx := by
        simp [addRouteSegs, hs.1, hs.2, findOrCreateChild, RouteTree.children,
          RouteTree.paramChild]
      rw [hadd]
      constructor
      · refine ⟨addHandlerMH ((((lookupStr ch s).getD (blankNode s "")).methods).getD
            newMethodHandler) m hh, ?_, ?_⟩
        · simp [findHandler, RouteTree.isWildcard, RouteTree.children,
            lookupStr_insertStr_self, addMethodsTo_methods]
        · exact addHandlerMH_lookup_self _ m hh
      · refine ⟨rfl, ?_⟩
        intro c _
        trivial
    · -- inner segment: recurse into the child
      have hne2 : (r1 :: r2) ≠ ([] : List String) := by simp
      obtain ⟨⟨mh, hfind, hlkm⟩, hchainn⟩ :=
        ih ((lookupStr ch s).getD (blankNode s "")) m hh hne2 hrest hchain0
      have hadd : addRouteSegs compile (RouteTree.node seg0 m0 ch pc pn false rx)
            (s :: r1 :: r2) m hh
          = RouteTree.node seg0 m0
              (insertStr ch s
                (addRouteSegs compile ((lookupStr ch s).getD (blankNode s "")) (r1 :: r2) m hh))
              pc pn false rx := by
        simp [addRouteSegs, hs.1, hs.2, findOrCreateChild, RouteTree.children,
          RouteTree.paramChild]
      rw [hadd]
      constructor
      · refine ⟨mh, ?_, hlkm⟩
        rw [findHandler_cons_eq]
        simp only [RouteTree.isWildcard, Bool.false_eq_true, if_false,
          RouteTree.children, lookupStr_insertStr_self]
        rw [hfind]
      · refine ⟨rfl, ?_⟩
        intro c hc
        simp only [RouteTree.children, lookupStr_insertStr_self] at hc
        have hceq := Option.some.inj hc
        rw [← hceq]
        exact hchainn

/-- Registering more methods on the same segments keeps the chain
wildcard-free. -/
theorem foldl_addRoute_chain {H : Type} (compile : String → String → Bool)
    (segs : List String) (hne : segs ≠ [])
    (hstat : ∀ s ∈ segs, strHasColon s = false ∧ s ≠ "...") (hh : H) :
    ∀ (ms : List String) (t : RouteTree H), wildFreeChain t segs →
      wildFreeChain
        (ms.foldl (fun acc mm => addRouteSegs compile acc segs (goToUpper mm) hh) t) segs := by
  intro ms
  induction ms with
  | nil => intro t h; exact h
  | cons mm ms ih =>
    intro t h
    simp only [List.foldl_cons]
    exact ih _ ((addRoute_static_reg compile segs t (goToUpper mm) hh hne hstat h).2)

/-- C6: `Handle` method defaulting — an omitted method list registers
the full standard method set (literally the same registrations as passing
`AllMethods`); and a call whose methods include `GET` but not an explicit
`HEAD` additionally registers `HEAD` with the same handler, so the
registered pattern answers `HEAD` — resolving the pattern finds a table
whose `HEAD` entry is that very handler. -/
theorem claim_C6 :
    (∀ (H : Type) (compile : String → String → Bool) (t : RouteTree H) (pat : String)
        (h : H),
      handle compile t pat h [] = handle compile t pat h AllMethods)
    ∧ (∀ (H : Type) (compile : String → String → Bool) (t : RouteTree H) (pat : String)
        (h : H) (ms : List String),
      goSplitSlash (trimSlash pat) ≠ [] →
      (∀ s ∈ goSplitSlash (trimSlash pat), strHasColon s = false ∧ s ≠ "...") →
      wildFreeChain t (goSplitSlash (trimSlash pat)) →
      ms ≠ [] → "GET" ∈ ms → "HEAD" ∉ ms →
      ∃ mh, findHandler (handle compile t pat h ms) (goSplitSlash (trimSlash pat)) []
          = (some (some mh), [])
        ∧ lookupStr mh.handlers "HEAD" = some h) := by
  constructor
  · intro H compile t pat h
    rfl
  · intro H compile t pat h ms hne hstat hchain hmsne hget hhead
    have hisEmpty : ms.isEmpty = false := by
      cases ms with
      | nil => exact absurd rfl hmsne
      | cons a l => rfl
    have hget2 : ms.contains "GET" = true := List.elem_eq_true_of_mem hget
    have hhead2 : ms.contains "HEAD" = false := by
      rcases hv : ms.contains "HEAD" with _ | _
      · rfl
      · exact absurd (List.mem_of_elem_eq_true hv) hhead
    have hh2 : handle compile t pat h ms
        = (ms ++ ["HEAD"]).foldl
            (fun acc mm => addRouteSegs compile acc (goSplitSlash (trimSlash pat))
              (goToUpper mm) h) t := by
      simp [handle, addRoute, hisEmpty, hget2, hhead2, hget, hhead]
    rw [hh2, List.foldl_append]
    have hchainf := foldl_addRoute_chain compile (goSplitSlash (trimSlash pat)) hne hstat h
      ms t hchain
    have hreg := addRoute_static_reg compile (goSplitSlash (trimSlash pat))
      (ms.foldl (fun acc mm => addRouteSegs compile acc (goSplitSlash (trimSlash pat))
        (goToUpper mm) h) t)
      (goToUpper "HEAD") h hne hstat hchainf
    simpa using hreg.1

/-- Closed instance of C6: `Handle("/doc", 11, GET)` answers `HEAD`. -/
theorem claim_C6_witness :
    ∃ mh, findHandler (handle noRx rootNode "/doc" 11 ["GET"])
        (goSplitSlash (trimSlash "/doc")) []
      = (some (some mh), [])
    ∧ lookupStr mh.handlers "HEAD" = some 11 :=
  claim_C6.2 Nat noRx rootNode "/doc" 11 ["GET"] (by decide) (by decide)
    ⟨rfl, fun c hc => nomatch hc⟩ (by decide) (by decide) (by decide)

/-- Closed instance of C9 on a one-bucket shard with a fresh key. -/
theorem claim_C9_witness :
    BucketInv ⟨2, 1, 10, 5⟩ ((⟨2, 1, 10, 5⟩ : RateLimiter).Allow [("a", ⟨1, 0, 3⟩)] "b" 5).2
    ∧ KeysNodup ((⟨2, 1, 10, 5⟩ : RateLimiter).Allow [("a", ⟨1, 0, 3⟩)] "b" 5).2
    ∧ ∀ k bOld bNew, lookupStr [("a", (⟨1, 0, 3⟩ : Bucket))] k = some bOld →
        lookupStr ((⟨2, 1, 10, 5⟩ : RateLimiter).Allow [("a", ⟨1, 0, 3⟩)] "b" 5).2 k
          = some bNew →
        bOld.lastSeen ≤ bNew.lastSeen :=
  claim_C9 ⟨2, 1, 10, 5⟩ [("a", ⟨1, 0, 3⟩)] "b" 5 (by decide) (by decide) (by decide)
    (by decide) (by decide)

end GoFlow
